import Mathlib

/-!
A verification development for the PyOP2 loop-nest optimiser
(`pyop2/ir/ast_optimiser.py`): loop-invariant code motion (`licm`) and loop
`interchange` on a perfect loop nest, together with the loop-nest explorer.

The AST node classes come from `pyop2.ir.ast_base`, which is not part of the
sources; they are modelled from the specification (section 3, DATA MODEL):
Block, For, Par, Decl, Symbol, binary expressions, Assign/Increment.  All
functions taken from `ast_optimiser.py` keep their source names
(`extract_const`, `replace_const`, `licm`, `interchange`, `find_perm`,
`check_opts`, `inspect`).  The Python code mutates the tree in place; here
mutation is represented by explicit state passing, and statements of the form
`xs[i]` that can raise `IndexError` / `KeyError` are modelled with `Option`
(`none` = the Python call raises).
-/

namespace PyOP2

/-- Modelled from the spec: an index of an array reference, either an
iteration-variable name or a literal dimension size (the `rank` entries of a
`Symbol` hold sizes in declarations and iteration variables in uses). -/
inductive Idx where
  | ivar (v : String)
  | size (n : Nat)
deriving DecidableEq, Repr

/-- Modelled from the spec: a `Symbol` AST leaf of `pyop2.ir.ast_base`,
with its name, its rank and its precomputed loop-dependency tuple
(spec section 3: "Symbol(name, rank = array-dimension sizes, precomputed
loop-dependency set for leaves)"). -/
structure Sym where
  symbol : String
  rank : List Idx
  loop_dep : List String
deriving DecidableEq, Repr

/-- Modelled from the spec: the `Symbol(name, rank)` constructor used by
`licm` to build temporaries; the precomputed dependency tuple of the new
symbol consists of the iteration variables occurring in its rank. -/
def mkSym (name : String) (rank : List Idx) : Sym :=
  { symbol := name
    rank := rank
    loop_dep := rank.filterMap (fun i => match i with
      | .ivar v => some v
      | .size _ => none) }

/-- The binary operators appearing in the kernels (`Sum`, `Prod`). -/
inductive BOp where
  | add
  | mul
deriving DecidableEq, Repr

/-- Modelled from the spec: expression trees, made of symbol leaves,
parenthesis wrappers (`Par`) and binary nodes (`BinExpr`). -/
inductive Expr where
  | sym (s : Sym)
  | par (e : Expr)
  | bin (op : BOp) (l r : Expr)
deriving DecidableEq, Repr

/-- The header data of a `For` node: `init` declares the iteration variable
(start value 0), `cond` bounds it by `bound`, `incr` is the step, plus the
attached pragma text.  These are the four fields moved by `interchange`
(`init`, `cond`, `incr`, `pragma`); `it_var()` reads `ivar` and `size()`
reads `bound`. -/
structure ForHdr where
  ivar : String
  bound : Nat
  incr : Nat
  pragma : Option (List Char)
deriving DecidableEq, Repr

/-- Modelled from the spec: statement-level AST nodes: `Block`, `For`,
`Decl`, `Assign`, `Incr`.  Assignment statements carry an optional pragma
(the statement-attached directive slot). -/
inductive Node where
  | block (children : List Node) (openScope : Bool)
  | forN (hdr : ForHdr) (body : Node)
  | decl (typ : String) (s : Sym)
  | assign (lhs : Sym) (rhs : Expr) (pragma : Option (List Char))
  | incrS (lhs : Sym) (rhs : Expr) (pragma : Option (List Char))

mutual

/-- Decidable structural equality for `Node`, written by hand because the
nested `List Node` field stops the derive handler. -/
def Node.decEq : (a b : Node) → Decidable (a = b)
  | .block cs o, .block cs2 o2 =>
    match Node.decEqs cs cs2 with
    | isTrue h1 =>
      if h2 : o = o2 then isTrue (by rw [h1, h2])
      else isFalse (fun hc => by injection hc with e1 e2; exact h2 e2)
    | isFalse h1 => isFalse (fun hc => by injection hc with e1 e2; exact h1 e1)
  | .forN h b, .forN h2 b2 =>
    if e1 : h = h2 then
      match Node.decEq b b2 with
      | isTrue e2 => isTrue (by rw [e1, e2])
      | isFalse e2 => isFalse (fun hc => by injection hc with f1 f2; exact e2 f2)
    else isFalse (fun hc => by injection hc with f1 f2; exact e1 f1)
  | .decl t s, .decl t2 s2 =>
    if e1 : t = t2 then
      if e2 : s = s2 then isTrue (by rw [e1, e2])
      else isFalse (fun hc => by injection hc with f1 f2; exact e2 f2)
    else isFalse (fun hc => by injection hc with f1 f2; exact e1 f1)
  | .assign l r p, .assign l2 r2 p2 =>
    if e1 : l = l2 then
      if e2 : r = r2 then
        if e3 : p = p2 then isTrue (by rw [e1, e2, e3])
        else isFalse (fun hc => by injection hc with f1 f2 f3; exact e3 f3)
      else isFalse (fun hc => by injection hc with f1 f2 f3; exact e2 f2)
    else isFalse (fun hc => by injection hc with f1 f2 f3; exact e1 f1)
  | .incrS l r p, .incrS l2 r2 p2 =>
    if e1 : l = l2 then
      if e2 : r = r2 then
        if e3 : p = p2 then isTrue (by rw [e1, e2, e3])
        else isFalse (fun hc => by injection hc with f1 f2 f3; exact e3 f3)
      else isFalse (fun hc => by injection hc with f1 f2 f3; exact e2 f2)
    else isFalse (fun hc => by injection hc with f1 f2 f3; exact e1 f1)
  | .block _ _, .forN _ _ => isFalse (fun hc => Node.noConfusion hc)
  | .block _ _, .decl _ _ => isFalse (fun hc => Node.noConfusion hc)
  | .block _ _, .assign _ _ _ => isFalse (fun hc => Node.noConfusion hc)
  | .block _ _, .incrS _ _ _ => isFalse (fun hc => Node.noConfusion hc)
  | .forN _ _, .block _ _ => isFalse (fun hc => Node.noConfusion hc)
  | .forN _ _, .decl _ _ => isFalse (fun hc => Node.noConfusion hc)
  | .forN _ _, .assign _ _ _ => isFalse (fun hc => Node.noConfusion hc)
  | .forN _ _, .incrS _ _ _ => isFalse (fun hc => Node.noConfusion hc)
  | .decl _ _, .block _ _ => isFalse (fun hc => Node.noConfusion hc)
  | .decl _ _, .forN _ _ => isFalse (fun hc => Node.noConfusion hc)
  | .decl _ _, .assign _ _ _ => isFalse (fun hc => Node.noConfusion hc)
  | .decl _ _, .incrS _ _ _ => isFalse (fun hc => Node.noConfusion hc)
  | .assign _ _ _, .block _ _ => isFalse (fun hc => Node.noConfusion hc)
  | .assign _ _ _, .forN _ _ => isFalse (fun hc => Node.noConfusion hc)
  | .assign _ _ _, .decl _ _ => isFalse (fun hc => Node.noConfusion hc)
  | .assign _ _ _, .incrS _ _ _ => isFalse (fun hc => Node.noConfusion hc)
  | .incrS _ _ _, .block _ _ => isFalse (fun hc => Node.noConfusion hc)
  | .incrS _ _ _, .forN _ _ => isFalse (fun hc => Node.noConfusion hc)
  | .incrS _ _ _, .decl _ _ => isFalse (fun hc => Node.noConfusion hc)
  | .incrS _ _ _, .assign _ _ _ => isFalse (fun hc => Node.noConfusion hc)

/-- Decidable structural equality for lists of nodes. -/
def Node.decEqs : (as bs : List Node) → Decidable (as = bs)
  | [], [] => isTrue rfl
  | a :: as, b :: bs =>
    match Node.decEq a b with
    | isTrue h1 =>
      match Node.decEqs as bs with
      | isTrue h2 => isTrue (by rw [h1, h2])
      | isFalse h2 => isFalse (fun hc => by injection hc with e1 e2; exact h2 e2)
    | isFalse h1 => isFalse (fun hc => by injection hc with e1 e2; exact h1 e1)
  | [], _ :: _ => isFalse (fun hc => List.noConfusion hc)
  | _ :: _, [] => isFalse (fun hc => List.noConfusion hc)

end

instance : DecidableEq Node := Node.decEq

/-- `perf_stmt` from `ast_base` (modelled from the spec): the
assignment/increment statement nodes. -/
def perf_stmt : Node → Bool
  | .assign _ _ _ => true
  | .incrS _ _ _ => true
  | _ => false

/-! ## The dependency analysis: `licm.extract_const` -/

/-- The per-statement invariant-group map `expr_dep`: Python is a
`defaultdict(list)` keyed by dependency tuples; modelled as an
insertion-ordered association list. -/
abbrev EDMap := List (List String × List Expr)

/-- `expr_dep[dep].append(e)` on the insertion-ordered association list. -/
def depAppend (m : EDMap) (dep : List String) (e : Expr) : EDMap :=
  if (m.lookup dep).isSome then
    m.map (fun p => if p.1 = dep then (p.1, p.2 ++ [e]) else p)
  else
    m ++ [(dep, [e])]

/-- `isinstance(node, Symbol)`: the test excluding bare symbol leaves from
registration. -/
def isSymbol : Expr → Bool
  | .sym _ => true
  | _ => false

/-- `licm.extract_const` (ast_optimiser.py lines 93-129).  Walks the
expression bottom-up; returns the updated group map together with the
dependency tuple and the invariance flag of the node.  A symbol leaf yields
its precomputed dependency tuple, invariant iff it is not a write target;
`Par` passes through; a binary node compares the children's dependency
tuples with `==`, and in the both-nonempty-and-different branch registers
each invariant non-symbol child in the group map under its own tuple. -/
def extract_const (written_vars : List String) : Expr → EDMap → EDMap × (List String × Bool)
  | .sym s, m => (m, (s.loop_dep, ¬ s.symbol ∈ written_vars))
  | .par e, m => extract_const written_vars e m
  | .bin _ l r, m =>
    let resL := extract_const written_vars l m
    let dep_left := resL.2.1
    let invariant_l := resL.2.2
    let resR := extract_const written_vars r resL.1
    let dep_right := resR.2.1
    let invariant_r := resR.2.2
    let m2 := resR.1
    if dep_left = dep_right then
      (m2, (dep_left, true))
    else if dep_left.length = 0 then
      (m2, (dep_right, true))
    else if dep_right.length = 0 then
      (m2, (dep_left, true))
    else
      let m3 := if invariant_l && !(isSymbol l) then depAppend m2 dep_left l else m2
      let m4 := if invariant_r && !(isSymbol r) then depAppend m3 dep_right r else m3
      (m4, ([], false))

/-! ## The substitution: `licm.replace_const` -/

/-- Lookup in `syms_dict`; built from `dict(zip(expr, for_sym))`, where a
later duplicate key overwrites an earlier one, so the zip list is stored
reversed and looked up front-to-back. -/
def dictLookup (d : List (Expr × Sym)) (e : Expr) : Option Sym :=
  (d.find? (fun p => p.1 = e)).map Prod.snd

/-- `licm.replace_const` (ast_optimiser.py lines 131-153).  Walks the
expression and replaces every dictionary hit one level up with its
temporary symbol; returns the rewritten node and the found flag bubbled to
the caller.  A bubbled hit whose parent slot key is absent from the
dictionary is a Python `KeyError`: modelled by `none`. -/
def replace_const (d : List (Expr × Sym)) : Expr → Option (Expr × Bool)
  | .sym s => some (.sym s, false)
  | .par e =>
    if (dictLookup d (.par e)).isSome then some (.par e, true)
    else
      match replace_const d e with
      | none => none
      | some (e2, b) => some (.par e2, b)
  | .bin op l r =>
    if (dictLookup d (.bin op l r)).isSome then some (.bin op l r, true)
    else
      match replace_const d l with
      | none => none
      | some (l2, bl) =>
        match (if bl then (dictLookup d l).map Expr.sym else some l2) with
        | none => none
        | some lNew =>
          match replace_const d r with
          | none => none
          | some (r2, br) =>
            match (if br then (dictLookup d r).map Expr.sym else some r2) with
            | none => none
            | some rNew => some (.bin op lNew rNew, false)

/-! ## The loop-nest explorer: `_explore_perfect_nest` -/

/-- Split off the leading segment up to the first occurrence of `c`
(`none` when `c` does not occur). -/
def splitFirst (c : Char) : List Char → Option (List Char × List Char)
  | [] => none
  | x :: xs =>
    if x = c then some ([], xs)
    else (splitFirst c xs).map (fun p => (x :: p.1, p.2))

/-- Python `s.split(" ", n)`: split on `c` at most `n` times, keeping the
remainder whole. -/
def splitLimit (c : Char) : Nat → List Char → List (List Char)
  | 0, s => [s]
  | n + 1, s =>
    match splitFirst c s with
    | none => [s]
    | some (a, rest) => a :: splitLimit c n rest

/-- The outcome of `check_opts` on one statement: nothing recorded
(no pragma, or a pragma with fewer than three tokens), an `outerproduct`
record of the two stored one-character operand strings, one of the two
non-fatal diagnostics, or a Python `IndexError` reading the operand
characters. -/
inductive CheckResult where
  | nothing
  | recorded (var1 var2 : List Char)
  | unrecognisedOpt (name : List Char)
  | unrecognisedPragma
  | crash
deriving DecidableEq, Repr

/-- `_explore_perfect_nest.check_opts` (ast_optimiser.py lines 35-56),
acting on the pragma text of a statement.  `split(" ", 2)` produces at most
three tokens; fewer than three returns silently; namespace token
`opts[1]` must be `"pyop2"`; the optimisation name is the text before the
first `(` with spaces removed (Python `find` returns `-1` when `(` is
absent, making the slices `[:-1]` and `[-1:]`); only `outerproduct` is
recorded, storing the characters at offsets 1 and 3 of the argument text. -/
def check_opts (pragma : Option (List Char)) : CheckResult :=
  match pragma with
  | none => .nothing
  | some p =>
    if p = [] then .nothing
    else
      let opts := splitLimit ' ' 2 p
      if opts.length < 3 then .nothing
      else
        match opts.get? 1, opts.get? 2 with
        | some o1, some o2 =>
          if o1 = "pyop2".toList then
            let cut : List Char × List Char :=
              match o2.findIdx? (fun x => x = '(') with
              | some d => (o2.take d, o2.drop d)
              | none => (o2.dropLast, o2.drop (o2.length - 1))
            let opt_name := cut.1.filter (fun x => ¬ x = ' ')
            let opt_par := cut.2.filter (fun x => ¬ x = ' ')
            if opt_name = "outerproduct".toList then
              match opt_par.get? 1, opt_par.get? 3 with
              | some a, some b => .recorded [a] [b]
              | _, _ => .crash
            else .unrecognisedOpt opt_name
          else .unrecognisedPragma
        | _, _ => .nothing

/-- A recorded outer-product entry of `self.out_prods`: the annotated
statement, the two stored operand strings, and the parent of the
statement. -/
structure OutProd where
  stmt : Node
  vars : List Char × List Char
  parent : Option Node
deriving DecidableEq

/-- The accumulator of the explorer: the loop list, the declaration table,
the symbol list, the recorded outer products, and `self.block` (the
children of the last `Block` entered, the statement block for a perfect
nest). -/
structure ExploreAcc where
  fors : List ForHdr
  decls : List (String × Node)
  syms : List String
  out_prods : List OutProd
  blockStmts : List Node
deriving DecidableEq

/-- The `Symbol` branch of `inspect` (lines 72-75): append the name to the
symbol list if ranked and not already present. -/
def inspectSym (s : Sym) (syms : List String) : List String :=
  if ¬ s.symbol ∈ syms ∧ s.rank ≠ [] then syms ++ [s.symbol] else syms

/-- The expression part of `_explore_perfect_nest.inspect` (the `Par`,
`Symbol` and `BinExpr` branches, lines 67-79), collecting ranked symbol
names. -/
def inspectE : Expr → List String → List String
  | .sym s, syms => inspectSym s syms
  | .par e, syms => inspectE e syms
  | .bin _ l r, syms => inspectE r (inspectE l syms)

mutual

/-- `_explore_perfect_nest.inspect` (ast_optimiser.py lines 58-88):
a depth-first walk recording every `For` header, every declaration, every
ranked symbol name (deduplicated) and, via `check_opts`, every recognised
statement directive; entering a `Block` resets `self.block` to its
children. -/
def inspect (node : Node) (parent : Option Node) (acc : ExploreAcc) : ExploreAcc :=
  match node with
  | .block cs _ => inspectList cs (some node) { acc with blockStmts := cs }
  | .forN hdr body => inspect body (some node) { acc with fors := acc.fors ++ [hdr] }
  | .decl _ s => { acc with decls := acc.decls ++ [(s.symbol, node)] }
  | .assign lhs rhs p =>
    let acc1 :=
      match check_opts p with
      | .recorded a b => { acc with out_prods := acc.out_prods ++ [OutProd.mk node (a, b) parent] }
      | _ => acc
    let acc2 := { acc1 with syms := inspectSym lhs acc1.syms }
    { acc2 with syms := inspectE rhs acc2.syms }
  | .incrS lhs rhs p =>
    let acc1 :=
      match check_opts p with
      | .recorded a b => { acc with out_prods := acc.out_prods ++ [OutProd.mk node (a, b) parent] }
      | _ => acc
    let acc2 := { acc1 with syms := inspectSym lhs acc1.syms }
    { acc2 with syms := inspectE rhs acc2.syms }

/-- The `Block` branch loop of `inspect`: visit each child in order. -/
def inspectList (nodes : List Node) (parent : Option Node) (acc : ExploreAcc) : ExploreAcc :=
  match nodes with
  | [] => acc
  | n :: ns => inspectList ns parent (inspect n parent acc)

end

/-- The empty explorer accumulator (`inspect(node, None, [], {}, [])`). -/
def emptyAcc : ExploreAcc := ⟨[], [], [], [], []⟩

/-! ## The optimiser state and `licm` -/

/-- The state of a `LoopOptimiser` on a perfect loop nest.  The pre-header
block children are split around the nest (`self.pre_header.children` =
`preBefore ++ [nest] ++ preAfter`, with insertions at
`children.index(self.loop_nest)` landing at the end of `preBefore`).  The
nest itself is the chain of loop headers in `levels`, each paired with the
nodes that `licm` has prepended at offset 0 of that loop's body block, and
`stmts` is `self.block.children`, the innermost statement block.  `decls`
and `sym` are the declaration table and the symbol list. -/
structure LOState where
  preBefore : List Node
  preAfter : List Node
  levels : List (ForHdr × List Node)
  stmts : List Node
  decls : List (String × Node)
  sym : List String
deriving DecidableEq

/-- `self.fors`: the loop headers, outermost first. -/
def LOState.fors (st : LOState) : List ForHdr := st.levels.map Prod.fst

/-- Render the nest chain back to a tree: each level's body block holds the
prepended nodes followed by the next loop (innermost: followed by the
statement block children). -/
def renderLevels : List (ForHdr × List Node) → List Node → Node
  | [], stmts => .block stmts true
  | [(h, ex)], stmts => .forN h (.block (ex ++ stmts) true)
  | (h, ex) :: l :: rest, stmts => .forN h (.block (ex ++ [renderLevels (l :: rest) stmts]) true)

/-- The perfect nest with the given headers around the given statement
block (no prepended nodes: the shape explored at construction). -/
def renderPerfect (hdrs : List ForHdr) (stmts : List Node) : Node :=
  renderLevels (hdrs.map (fun h => (h, []))) stmts

/-- Render the whole program: the pre-header block around the nest. -/
def renderProg (st : LOState) : Node :=
  .block (st.preBefore ++ [renderLevels st.levels st.stmts] ++ st.preAfter) false

/-- `LoopOptimiser.__init__` for a perfect nest placed in a pre-header
block: run the explorer on the nest and record its declaration table and
symbol list. -/
def initLO (preBefore preAfter : List Node) (hdrs : List ForHdr) (stmts : List Node) : LOState :=
  let acc := inspect (renderPerfect hdrs stmts) none emptyAcc
  { preBefore := preBefore
    preAfter := preAfter
    levels := hdrs.map (fun h => (h, []))
    stmts := stmts
    decls := acc.decls
    sym := acc.syms }

/-- The write-target collection of `licm` (lines 156-159): the left-hand
symbol of every assignment/increment child of the statement block. -/
def written_vars_of (stmts : List Node) : List String :=
  stmts.filterMap (fun s => match s with
    | .assign lhs _ _ => some lhs.symbol
    | .incrS lhs _ _ => some lhs.symbol
    | _ => none)

/-- The placement computation of `licm` for one invariant group (lines
181-199): `fast_for` is the first loop whose variable is the last entry of
`dep`; `n_dep_for` is the first loop whose variable is not in `dep`;
`pre_loop` is the last loop of the prefix of loops that are neither; the
wrapping list is `[fast_for]` when a `pre_loop` exists and otherwise every
loop whose variable is in `dep`, in nest order.  `none` models the Python
`IndexError` when `dep` is empty or one of the two selections has no
candidate. -/
def licmPlacement (fors : List ForHdr) (dep : List String) :
    Option (Option ForHdr × List ForHdr) := do
  let lastVar ← dep.getLast?
  let fast_for ← fors.find? (fun l => l.ivar = lastVar)
  let n_dep_for ← fors.find? (fun l => ¬ l.ivar ∈ dep)
  let pre_loop := (fors.takeWhile
    (fun l => l.ivar ≠ fast_for.ivar ∧ l.ivar ≠ n_dep_for.ivar)).getLast?
  let wl := match pre_loop with
    | some _ => [fast_for]
    | none => fors.filter (fun l => l.ivar ∈ dep)
  pure (pre_loop, wl)

/-- The loop-building of `licm` step 2 (lines 210-213): wrap the assignment
block with a copy of each wrapping loop in turn, so the head of `wl`
becomes the innermost loop; `none` models the unreachable empty `wl`. -/
def buildWrap : List ForHdr → Node → Option Node
  | [], _ => none
  | [l], b => some (.forN l b)
  | l :: l2 :: rest, b => buildWrap (l2 :: rest) (.block [.forN l b] true)

/-- Prepend nodes at offset 0 of the body block of the loop with the given
iteration variable (the `place.children[:0]` insertion of line 223-224). -/
def insertAtLevel (levels : List (ForHdr × List Node)) (iv : String) (items : List Node) :
    List (ForHdr × List Node) :=
  levels.map (fun p => if p.1.ivar = iv then (p.1, items ++ p.2) else p)

/-- `dict.update` on the declaration table: replace existing keys, append
new ones. -/
def declsUpdate (ds : List (String × Node)) (new : List (String × Node)) :
    List (String × Node) :=
  new.foldl (fun acc kv =>
    if (acc.lookup kv.1).isSome then
      acc.map (fun p => if p.1 = kv.1 then kv else p)
    else acc ++ [kv]) ds

/-- One invariant group of one statement inside `licm` (lines 176-232):
the placement, the creation of the temporaries and their computing loop,
the bookkeeping, the splice, and the `replace_const` rewrite of the
statement's value expression.  Returns the updated state, the rewritten
right-hand side, and the grown external-loops list. -/
def licmGroup (typ : String) (dep : List String) (exprList : List Expr)
    (st : LOState) (rhs : Expr) (ext : List Node) :
    Option (LOState × Expr × List Node) := do
  let (pre_loop, wl) ← licmPlacement st.fors dep
  let w0 ← wl.head?
  let sym_rank := wl.map (fun l => Idx.size l.bound)
  let syms := (List.range exprList.length).map (fun i =>
    mkSym ("LI_" ++ w0.ivar ++ "_" ++ toString i) sym_rank)
  let var_decl := syms.map (fun s => Node.decl typ s)
  let for_rank := wl.reverse.map (fun l => Idx.ivar l.ivar)
  let for_sym := syms.map (fun s => mkSym s.symbol for_rank)
  let for_ass := (for_sym.zip exprList).map (fun p => Node.assign p.1 p.2 none)
  let inv_for ← buildWrap wl (.block for_ass true)
  let sym2 := st.sym ++ var_decl.filterMap (fun d => match d with
    | .decl _ s => some s.symbol
    | _ => none)
  let decls2 := declsUpdate st.decls (var_decl.filterMap (fun d => match d with
    | .decl _ s => some (s.symbol, d)
    | _ => none))
  let st2 :=
    match pre_loop with
    | some pl =>
      { st with levels := insertAtLevel st.levels pl.ivar (var_decl ++ [inv_for])
                sym := sym2
                decls := decls2 }
    | none =>
      { st with preBefore := st.preBefore ++ var_decl ++ [inv_for]
                sym := sym2
                decls := decls2 }
  let ext2 := match pre_loop with
    | some _ => ext
    | none => ext ++ [inv_for]
  let d := ((exprList.zip for_sym).map (fun p => (p.1, p.2))).reverse
  let res ← replace_const d rhs
  pure (st2, res.1, ext2)

/-- Write a rewritten right-hand side back into a statement. -/
def setRhs (s : Node) (rhs : Expr) : Node :=
  match s with
  | .assign lhs _ p => .assign lhs rhs p
  | .incrS lhs _ p => .incrS lhs rhs p
  | other => other

/-- One iteration of the statement loop of `licm` (lines 164-232): for an
assignment/increment statement, look up the declared type of the target
(Python `KeyError` when absent, modelled by `none`), run `extract_const`,
and fold `licmGroup` over the collected groups, writing the rewritten
expression back in place. -/
def licmStmt (written_vars : List String) (n : Nat) (acc : LOState × List Node) :
    Option (LOState × List Node) := do
  let st := acc.1
  match st.stmts.get? n with
  | none => some acc
  | some s =>
    match s with
    | .assign lhs rhs _ | .incrS lhs rhs _ => do
      let dnode ← st.decls.lookup lhs.symbol
      let typ ← (match dnode with | .decl t _ => some t | _ => none)
      let expr_dep := (extract_const written_vars rhs []).1
      let folded ← expr_dep.foldlM
        (fun (a : LOState × Expr × List Node) g =>
          licmGroup typ g.1 g.2 a.1 a.2.1 a.2.2)
        (st, rhs, acc.2)
      let st2 := folded.1
      pure ({ st2 with stmts := st2.stmts.set n (setRhs s folded.2.1) }, folded.2.2)
    | _ => some acc

/-- `LoopOptimiser.licm` (ast_optimiser.py lines 90-234): collect the write
targets, then process each statement of the innermost block in order;
returns the updated optimiser state together with `ext_loops`, the loops
hoisted out to the pre-header. -/
def licm (st : LOState) : Option (LOState × List Node) :=
  let written_vars := written_vars_of st.stmts
  (List.range st.stmts.length).foldlM
    (fun acc n => licmStmt written_vars n acc) (st, [])

/-- The state after one `licm` run (discarding `ext_loops`). -/
def licmOnce (st : LOState) : Option LOState := (licm st).map Prod.fst

/-! ## `interchange` and `find_perm` -/

/-- `interchange.find_perm` (ast_optimiser.py lines 242-254): walk the live
tree; at each `For`, copy `init`, `cond`, `incr` and `pragma` from
`fors[perm[idx]]` (the deep-copied snapshot), append the live node to
`nw_fors` and descend into the body with `idx + 1`; at a `Block`, the
Python loop returns on its first child; a statement stops the walk.
Returns the rewritten node, the collected `nw_fors` headers, and `false`
when `perm[idx]` or `fors[perm[idx]]` raises `IndexError` (the node at the
failure point is left unchanged, ancestors stay mutated). -/
def find_perm (node : Node) (perm : List Nat) (idx : Nat) (fors : List ForHdr) :
    Node × List ForHdr × Bool :=
  match node with
  | .assign _ _ _ => (node, [], true)
  | .incrS _ _ _ => (node, [], true)
  | .forN _ body =>
    match (perm.get? idx).bind fors.get? with
    | none => (node, [], false)
    | some f =>
      let rec2 := find_perm body perm (idx + 1) fors
      (.forN f rec2.1, f :: rec2.2.1, rec2.2.2)
  | .block cs o =>
    match cs with
    | [] => (node, [], true)
    | c :: rest =>
      let rec2 := find_perm c perm idx fors
      (.block (rec2.1 :: rest) o, rec2.2.1, rec2.2.2)
  | .decl _ _ => (node, [], true)

/-- `LoopOptimiser.interchange` (ast_optimiser.py lines 236-265) acting on
`(self.loop_nest, self.fors)`: a permutation with duplicate entries fails
the `len(perm) != len(set(perm))` check and returns with no mutation;
otherwise `find_perm` rewrites the live tree reading the deep-copied
snapshot, and on success the tracked loop list is replaced by `nw_fors`.
When `find_perm` raises, the exception propagates after the tree has been
partially mutated, and line 265 is never reached. -/
def interchange (tree : Node) (fors : List ForHdr) (perm : List Nat) :
    Node × List ForHdr :=
  if perm.length ≠ perm.dedup.length then (tree, fors)
  else
    let old_fors := fors
    let r := find_perm tree perm 0 old_fors
    if r.2.2 then (r.1, r.2.1) else (r.1, fors)

/-! ## An evaluation semantics for the rendered programs -/

/-- The program state: an environment for scalar variables (iteration
variables included, defaulting to 0) and a heap mapping an array name and
an index list to an integer. -/
structure St where
  env : String → Int
  heap : String → List Int → Int

/-- Set a scalar variable. -/
def setVar (st : St) (v : String) (x : Int) : St :=
  { st with env := fun n => if n = v then x else st.env n }

/-- Evaluate one rank entry to an index. -/
def evalIdx (env : String → Int) : Idx → Int
  | .ivar v => env v
  | .size n => (n : Int)

/-- Evaluate an expression: an unranked symbol reads the environment, a
ranked symbol reads the heap at its evaluated indices. -/
def evalExpr (st : St) : Expr → Int
  | .sym s => if s.rank = [] then st.env s.symbol
              else st.heap s.symbol (s.rank.map (evalIdx st.env))
  | .par e => evalExpr st e
  | .bin .add l r => evalExpr st l + evalExpr st r
  | .bin .mul l r => evalExpr st l * evalExpr st r

/-- Store a value through a symbol reference. -/
def storeSym (st : St) (s : Sym) (v : Int) : St :=
  if s.rank = [] then setVar st s.symbol v
  else
    let idx := s.rank.map (evalIdx st.env)
    { st with heap := fun n i => if n = s.symbol ∧ i = idx then v else st.heap n i }

/-- The values taken by a loop variable: `0, incr, 2*incr, ...` below
`bound`. -/
def stepRange (bound incr : Nat) : List Nat :=
  (List.range bound).filter (fun t => t % incr = 0)

/-- Execute a statement node, structurally recursive on a fuel bound on
the block/loop nesting depth (one unit per tree level, not per iteration):
blocks run their children in order, declarations are no-ops, a loop runs
its body once per iteration-variable value, assignments and increments
update the heap. -/
def exec : Nat → Node → St → St
  | 0, _, st => st
  | fuel + 1, node, st =>
    match node with
    | .block cs _ => cs.foldl (fun s n => exec fuel n s) st
    | .forN h body =>
      (stepRange h.bound h.incr).foldl
        (fun s t => exec fuel body (setVar s h.ivar (t : Int))) st
    | .decl _ _ => st
    | .assign lhs rhs _ => storeSym st lhs (evalExpr st rhs)
    | .incrS lhs rhs _ =>
      storeSym st lhs (st.heap lhs.symbol (lhs.rank.map (evalIdx st.env)) + evalExpr st rhs)

/-- Run a rendered program from the all-zero environment over the given
initial heap and observe one heap cell. -/
def runProg (st : LOState) (heap0 : String → List Int → Int)
    (name : String) (idx : List Int) : Int :=
  (exec 100 (renderProg st) { env := fun _ => 0, heap := heap0 }).heap name idx

/-! ## Concrete kernels used by the claims -/

/-- An array symbol whose indices are iteration variables, with its
matching precomputed dependency tuple. -/
def arrSym (name : String) (ivs : List String) : Sym :=
  { symbol := name, rank := ivs.map Idx.ivar, loop_dep := ivs }

/-- A loop header `for v = 0; v < bound; v += 1` with no pragma. -/
def mkFor (v : String) (bound : Nat) : ForHdr :=
  { ivar := v, bound := bound, incr := 1, pragma := none }

/-- The section-8 scenario statement: `A[i][j] = B[i]*C[j] + D[i]`. -/
def rhsC2 : Expr :=
  .bin .add (.bin .mul (.sym (arrSym "B" ["i"])) (.sym (arrSym "C" ["j"])))
    (.sym (arrSym "D" ["i"]))

/-- The section-8 scenario program: `for i in 0..2: for j in 0..2:
A[i][j] = B[i]*C[j] + D[i]`, with the target declared in the statement
block. -/
def progC2 : LOState :=
  initLO [] [] [mkFor "i" 2, mkFor "j" 2]
    [.decl "double" (arrSym "A" ["i", "j"]),
     .assign (arrSym "A" ["i", "j"]) rhsC2 none]

/-- The statement `A[i][j] = (B[i]*C[j] + D[i]) * E[j]`: the parenthesised
sum gets dependency tuple `("i")` from the empty-side rule although it
reads `C[j]`. -/
def rhsC1 : Expr :=
  .bin .mul
    (.par (.bin .add
      (.bin .mul (.sym (arrSym "B" ["i"])) (.sym (arrSym "C" ["j"])))
      (.sym (arrSym "D" ["i"]))))
    (.sym (arrSym "E" ["j"]))

/-- The two-loop program `for i in 0..1: for j in 0..2:
A[i][j] = (B[i]*C[j] + D[i]) * E[j]`. -/
def progC1 : LOState :=
  initLO [] [] [mkFor "i" 1, mkFor "j" 2]
    [.decl "double" (arrSym "A" ["i", "j"]),
     .assign (arrSym "A" ["i", "j"]) rhsC1 none]

/-- An initial heap for `progC1` on which hoisting `B[i]*C[j] + D[i]` out
of the `j` loop changes the result: `C[1] = 20`, `C[_] = 10`, `B = 1`,
`D = 0`, `E = 1`. -/
def heapC1 : String → List Int → Int := fun n i =>
  if n = "C" then (if i = [(1 : Int)] then 20 else 10)
  else if n = "B" then 1
  else if n = "D" then 0
  else if n = "E" then 1
  else 0

/-- The statement `A[i][j][k] = (U[j][i]*V[j][i]) * W[k]` whose invariant
group key is the tuple `("j", "i")`: its last entry selects the `i` loop
and its wrap list is the nest-ordered `[i, j]`. -/
def rhsC5 : Expr :=
  .bin .mul
    (.par (.bin .mul (.sym (arrSym "U" ["j", "i"])) (.sym (arrSym "V" ["j", "i"]))))
    (.sym (arrSym "W" ["k"]))

/-- The three-loop program for the placement claim. -/
def progC5 : LOState :=
  initLO [] [] [mkFor "i" 2, mkFor "j" 2, mkFor "k" 2]
    [.decl "double" (arrSym "A" ["i", "j", "k"]),
     .assign (arrSym "A" ["i", "j", "k"]) rhsC5 none]

/-- The statement
`A[i][j][k] = (( U[i][j]*V[i][j] ) * ( S[j]*T[j] )) + W[k]`, producing the
invariant groups `("i","j") -> Par(U*V)` and `("j") -> Par(S*T)`. -/
def rhsC7 : Expr :=
  .bin .add
    (.par (.bin .mul
      (.par (.bin .mul (.sym (arrSym "U" ["i", "j"])) (.sym (arrSym "V" ["i", "j"]))))
      (.par (.bin .mul (.sym (arrSym "S" ["j"])) (.sym (arrSym "T" ["j"]))))))
    (.sym (arrSym "W" ["k"]))

/-- The three-loop program on which `licm` hoists two groups that both
name their temporary `LI_j_0`, and on which a second `licm` run hoists
again. -/
def progC7 : LOState :=
  initLO [] [] [mkFor "i" 2, mkFor "j" 2, mkFor "k" 2]
    [.decl "double" (arrSym "A" ["i", "j", "k"]),
     .assign (arrSym "A" ["i", "j", "k"]) rhsC7 none]

/-- A two-loop perfect nest for the interchange claims. -/
def hdrsC3 : List ForHdr := [mkFor "i" 2, mkFor "j" 3]

/-- Its statement block. -/
def stmtsC3 : List Node :=
  [.assign (arrSym "A" ["i", "j"]) (.sym (arrSym "B" ["i"])) none]

/-- The rendered two-loop nest. -/
def nestC3 : Node := renderPerfect hdrsC3 stmtsC3

/-- A non-symbol subexpression with dependency tuple `("i", "j")`. -/
def lC4 : Expr :=
  .par (.bin .mul (.sym (arrSym "U" ["i", "j"])) (.sym (arrSym "V" ["i", "j"])))

/-- A non-symbol subexpression with dependency tuple `("j", "i")`: the same
dependency set, listed in the other order. -/
def rC4 : Expr :=
  .par (.bin .mul (.sym (arrSym "P" ["j", "i"])) (.sym (arrSym "Q" ["j", "i"])))

/-- A binary node whose children's dependency tuples are equal as sets but
not as tuples. -/
def eC4 : Expr := .bin .mul lC4 rC4

/-- The temporary-computing assignment hoisted out of `progC5`. -/
def asgC5 : Node :=
  .assign (mkSym "LI_i_0" [.ivar "j", .ivar "i"])
    (.par (.bin .mul (.sym (arrSym "U" ["j", "i"])) (.sym (arrSym "V" ["j", "i"]))))
    none

/-- The loop nest `licm` actually builds around `asgC5`: the `j` copy
outermost, the `i` copy innermost. -/
def c5ActualFor : Node :=
  .forN (mkFor "j" 2) (.block [.forN (mkFor "i" 2) (.block [asgC5] true)] true)

/-- The loop nest the claim predicts: the first element `"j"` of the
dependency set as the innermost wrapper. -/
def c5ClaimFor : Node :=
  .forN (mkFor "i" 2) (.block [.forN (mkFor "j" 2) (.block [asgC5] true)] true)

/-- A placement decision for one invariant group: either inside the body
of a loop that precedes the fast/non-depending pair, or at the pre-header;
in both cases together with the wrapping loops, listed innermost first. -/
inductive PlaceDescr where
  | inBody (pre : ForHdr) (wrap : List ForHdr)
  | atPreHeader (wrap : List ForHdr)
deriving DecidableEq, Repr

/-- The placement actually computed by `licm`, as a descriptor. -/
def licmPlaceDescr (fors : List ForHdr) (dep : List String) : Option PlaceDescr :=
  (licmPlacement fors dep).map (fun p =>
    match p.1 with
    | some pre => PlaceDescr.inBody pre p.2
    | none => PlaceDescr.atPreHeader p.2)

/-- The spec-side placement rule, written from the amended claim: `fastFor`
is the loop of the last element of `depSet`, `nonDepFor` the first loop
whose variable is absent from `depSet`; if the first occurrence of either
is not the outermost loop, the insertion happens in the body of the loop
immediately before that occurrence, wrapped by `fastFor` alone; otherwise
at the pre-header, wrapped by every loop whose variable is in `depSet`
taken in nest order, the first of them innermost. -/
def hoistPlacementSpec (fors : List ForHdr) (dep : List String) : Option PlaceDescr := do
  let lastVar ← dep.getLast?
  let fastFor ← fors.find? (fun l => l.ivar = lastVar)
  let nonDepFor ← fors.find? (fun l => ¬ l.ivar ∈ dep)
  let firstOcc := fors.findIdx (fun l => l.ivar = fastFor.ivar ∨ l.ivar = nonDepFor.ivar)
  if 0 < firstOcc then do
    let pre ← fors.get? (firstOcc - 1)
    pure (.inBody pre [fastFor])
  else
    pure (.atPreHeader (fors.filter (fun l => l.ivar ∈ dep)))

/-- The nested hoisted loop described by the amended claim, built from the
wrap list given outermost first: each loop wraps an open-scope block
holding the next one, the last gets the assignment block itself. -/
def specWrapOut : List ForHdr → Node → Node
  | [], b => b
  | [l], b => .forN l b
  | l :: l2 :: rest, b => .forN l (.block [specWrapOut (l2 :: rest) b] true)

/-- The headers selected by `find_perm` along a perfect nest: position `d`
reads `fors[perm[idx + d]]`; `none` as soon as one index is missing. -/
def selHdrs (perm : List Nat) (fors : List ForHdr) : Nat → Nat → Option (List ForHdr)
  | _, 0 => some []
  | idx, n + 1 => do
    let f ← (perm.get? idx).bind fors.get?
    let rest ← selHdrs perm fors (idx + 1) n
    pure (f :: rest)

/-- A statement block on which the `find_perm` walk stops: empty, or
headed by a statement or declaration (never by a loop or block). -/
def stopsWalk : List Node → Bool
  | [] => true
  | n :: _ =>
    match n with
    | .assign _ _ _ => true
    | .incrS _ _ _ => true
    | .decl _ _ => true
    | _ => false

/-- A three-loop nest for the interchange witness. -/
def hdrsC6 : List ForHdr := [mkFor "i" 2, mkFor "j" 3, mkFor "k" 4]

/-- The namespace-qualified outer-product directive text with the two
one-character operands `a` and `b`. -/
def opPragma (a b : Char) : List Char :=
  ['#', 'p', 'r', 'a', 'g', 'm', 'a', ' ', 'p', 'y', 'o', 'p', '2', ' ',
   'o', 'u', 't', 'e', 'r', 'p', 'r', 'o', 'd', 'u', 'c', 't', '('] ++
  [a, ',', b, ')']

/-- The bookkeeping-growth relation between optimiser states: the symbol
list grows by appending a tail whose every name has a declaration entry,
and existing declaration entries never disappear. -/
def licmGrows (a b : LOState) : Prop :=
  ∃ t, b.sym = a.sym ++ t ∧
    (∀ n ∈ t, ((b.decls.lookup n).isSome) = true) ∧
    (∀ n : String, ((a.decls.lookup n).isSome) = true →
      ((b.decls.lookup n).isSome) = true)

/-! ## Claim theorems -/

/-- C1: on the two-loop nest `for i in 0..1: for j in 0..2:
A[i][j] = (B[i]*C[j] + D[i]) * E[j]`, `licm` hoists the parenthesised sum
out of the `j` loop although it reads `C[j]` (the empty dependency tuple
produced by the failed child analysis is mistaken for loop invariance), so
the rewritten program computes `A[0][1] = 10` where the original computes
`20` on the heap `heapC1`: the transformed program is not semantically
equivalent, refuting the claimed equivalence for all valid bounds. -/
theorem c1_hoisted_program_diverges :
    (licm progC1).map (fun r => runProg r.1 heapC1 "A" [0, 1]) = some 10 ∧
      runProg progC1 heapC1 "A" [0, 1] = 20 := by
  constructor
  · decide
  · decide

/-- C2: on the section-8 scenario `for i: for j: A[i][j] = B[i]*C[j] + D[i]`,
`licm` hoists nothing at all: `B[i]` and `D[i]` are bare symbol leaves,
which `extract_const` never registers, so the state is returned unchanged,
no temporary is created and no loop is hoisted — contradicting the claimed
grouping and hoisting of `B[i]` and `D[i]`. -/
theorem c2_counterexample :
    licm progC2 = some (progC2, []) ∧
      progC2.sym.all (fun n => !(n.startsWith "LI")) = true := by
  constructor
  · decide
  · decide

/-- C2 (amended): `licm` on the scenario statement registers no invariant
group (bare symbols are excluded by the `not just symbols` test), leaves
the program unchanged and creates no temporaries. -/
theorem c2_amended_noop :
    (extract_const (written_vars_of progC2.stmts) rhsC2 []).1 = [] ∧
      licm progC2 = some (progC2, []) ∧
      progC2.sym = ["A", "B", "C", "D"] := by
  refine ⟨by decide, by decide, by decide⟩

/-- C3: the duplicate-free but out-of-range argument `[1, 2]` on the
two-loop nest passes the `len(perm) != len(set(perm))` check; `find_perm`
then copies the header of snapshot loop 1 onto the outermost live loop
before raising `IndexError` at `fors[2]`, leaving the tree mutated —
refuting the claim that every non-bijective argument is rejected without
mutation. -/
theorem c3_counterexample :
    interchange nestC3 hdrsC3 [1, 2] =
      (renderPerfect [mkFor "j" 3, mkFor "j" 3] stmtsC3, hdrsC3) ∧
      renderPerfect [mkFor "j" 3, mkFor "j" 3] stmtsC3 ≠ nestC3 := by
  constructor
  · decide
  · decide

/-- C4: a binary node whose children's dependency tuples `("i","j")` and
`("j","i")` are equal as sets but not as tuples does not take the
equal-dependency branch: both children are registered in the group map and
the node returns `((), false)` instead of the claimed `(depSet, true)`. -/
theorem c4_counterexample :
    (extract_const [] lC4 []).2.1.toFinset = (extract_const [] rC4 []).2.1.toFinset ∧
      (extract_const [] lC4 []).2 = (["i", "j"], true) ∧
      (extract_const [] rC4 []).2 = (["j", "i"], true) ∧
      (extract_const [] eC4 []).2 = ([], false) ∧
      (extract_const [] eC4 []).1 = [(["i", "j"], [lC4]), (["j", "i"], [rC4])] := by
  refine ⟨by decide, by decide, by decide, by decide, by decide⟩

/-- C5: for the group with dependency tuple `("j","i")` in the `i-j-k`
nest, the hoisted computation inserted at the pre-header is wrapped with
the `j` loop outermost and the `i` loop innermost (the wrap order follows
the nest order of the loops, head of the wrap list innermost), not with
the first element `"j"` of the dependency set innermost as claimed. -/
theorem c5_counterexample :
    (licm progC5).map (fun r => r.1.preBefore) =
      some [Node.decl "double" (mkSym "LI_i_0" [.size 2, .size 2]), c5ActualFor] ∧
      c5ActualFor ≠ c5ClaimFor := by
  constructor
  · decide
  · decide

/-- C7: a second `licm` run on the optimised `progC7` is not the identity:
the first run rewrote the statement to `(LI_j_0[j]*LI_j_0[j]) + W[k]`,
whose product of temporaries now forms a registrable invariant group, so
the second run hoists again and inserts a new declaration and loop. -/
theorem c7_counterexample :
    (licmOnce progC7).bind licmOnce ≠ licmOnce progC7 := by
  decide

/-- C8: after one `licm` run on `progC7` the symbol list contains the name
`LI_j_0` twice — the two invariant groups both derive their temporary name
from the `j` loop and index 0 — so the symbol list is not duplicate-free. -/
theorem c8_counterexample :
    (licmOnce progC7).map LOState.sym =
      some ["A", "U", "V", "S", "T", "W", "LI_j_0", "LI_j_0"] ∧
      ¬ (["A", "U", "V", "S", "T", "W", "LI_j_0", "LI_j_0"] : List String).Nodup := by
  constructor
  · decide
  · decide

/-- C9: on the directive `#pragma pyop2 outerproduct(ii,jj)` the recorded
operands are the characters at offsets 1 and 3 of the argument text,
`"i"` and `","` — not the operand names `"ii"` and `"jj"` as claimed. -/
theorem c9_counterexample :
    check_opts (some ("#pragma pyop2 outerproduct(ii,jj)".toList)) =
      .recorded ['i'] [','] ∧
      ['i'] ≠ "ii".toList ∧ [','] ≠ "jj".toList := by
  refine ⟨by decide, by decide, by decide⟩

/-- C7 (amended): when a `licm` run returns its state unchanged, running
it again gives the same result; the counterexample shows the general
idempotence claim fails when the first run did hoist. -/
theorem c7_noop_idempotent (st : LOState) (ext : List Node)
    (h : licm st = some (st, ext)) :
    (licmOnce st).bind licmOnce = licmOnce st := by
  simp [licmOnce, h]

/-- C7 witness: the scenario program, on which `licm` is a no-op, is a
fixed point of repeated runs. -/
theorem c7_noop_witness :
    licm progC2 = some (progC2, []) ∧
      (licmOnce progC2).bind licmOnce = licmOnce progC2 :=
  ⟨by decide, c7_noop_idempotent progC2 [] (by decide)⟩

/-- Keys of `depAppend m dep e` are keys of `m` or the new key `dep`. -/
theorem depAppend_keys (m : EDMap) (dep k : List String) (e : Expr)
    (hk : k ∈ (depAppend m dep e).map Prod.fst) :
    k ∈ m.map Prod.fst ∨ k = dep := by
  unfold depAppend at hk
  by_cases hc : (m.lookup dep).isSome
  · rw [if_pos hc] at hk
    left
    have he : (m.map (fun p => if p.1 = dep then (p.1, p.2 ++ [e]) else p)).map Prod.fst
        = m.map Prod.fst := by
      rw [List.map_map]
      apply List.map_congr_left
      intro p _
      by_cases hp : p.1 = dep <;> simp [hp]
    rwa [he] at hk
  · rw [if_neg hc, List.map_append] at hk
    rcases List.mem_append.mp hk with h1 | h2
    · exact Or.inl h1
    · exact Or.inr (by simpa using h2)

/-- Keys of a conditional `depAppend` are old keys or the appended key. -/
theorem depAppendIf_keys {c : Prop} [Decidable c] (m : EDMap)
    (dep k : List String) (e : Expr)
    (hk : k ∈ ((if c then depAppend m dep e else m).map Prod.fst)) :
    k ∈ m.map Prod.fst ∨ k = dep := by
  by_cases hc : c
  · rw [if_pos hc] at hk
    exact depAppend_keys m dep k e hk
  · rw [if_neg hc] at hk
    exact Or.inl hk

/-- Every key that `extract_const` adds to the group map is nonempty:
registration happens only in the branch where both children's dependency
tuples have nonzero length. -/
theorem extract_const_keys (w : List String) :
    ∀ (e : Expr) (m : EDMap), (∀ k ∈ m.map Prod.fst, k ≠ []) →
      ∀ k ∈ ((extract_const w e m).1).map Prod.fst, k ≠ []
  | .sym _, m, hm => by simpa [extract_const] using hm
  | .par e, m, hm => by
    simpa [extract_const] using extract_const_keys w e m hm
  | .bin op l r, m, hm => by
    have h1 := extract_const_keys w l m hm
    have h2 := extract_const_keys w r (extract_const w l m).1 h1
    simp only [extract_const]
    by_cases hc1 : (extract_const w l m).2.1
        = (extract_const w r (extract_const w l m).1).2.1
    · simpa [hc1] using h2
    · by_cases hc2 : (extract_const w l m).2.1.length = 0
      · simpa [hc1, hc2] using h2
      · by_cases hc3 : (extract_const w r (extract_const w l m).1).2.1.length = 0
        · simpa [hc1, hc2, hc3] using h2
        · have hdl : (extract_const w l m).2.1 ≠ [] := by
            intro hnil
            exact hc2 (by simp [hnil])
          have hdr : (extract_const w r (extract_const w l m).1).2.1 ≠ [] := by
            intro hnil
            exact hc3 (by simp [hnil])
          simp only [if_neg hc1, if_neg hc2, if_neg hc3]
          intro k hk
          rcases depAppendIf_keys _ _ _ _ hk with hk2 | hk2
          · rcases depAppendIf_keys _ _ _ _ hk2 with hk3 | hk3
            · exact h2 k hk3
            · exact hk3 ▸ hdl
          · exact hk2 ▸ hdr

/-- C10: every key of the invariant-group map produced by the dependency
analysis (starting, as `licm` does, from the empty map) is a nonempty
dependency tuple, so indexing its last element — as the hoister's
`dep[-1]` selection does — is always defined. -/
theorem c10_group_keys_nonempty (written : List String) (e : Expr)
    (dep : List String)
    (h : dep ∈ ((extract_const written e []).1).map Prod.fst) :
    dep ≠ [] ∧ (dep.getLast?).isSome := by
  have h1 := extract_const_keys written e [] (by simp) dep h
  exact ⟨h1, List.getLast?_isSome.mpr h1⟩

/-- C4 (amended): the branch behaviour of `extract_const` with dependency
tuples compared as ordered tuples: a symbol leaf returns its precomputed
tuple, invariant iff not a write target; equal child tuples propagate with
invariance true; an empty child tuple yields the other side with
invariance true; two different nonempty tuples register each invariant
non-symbol child under its exact tuple and return `((), false)`. -/
theorem c4_extract_const_branches :
    (∀ (w : List String) (s : Sym) (m : EDMap),
      extract_const w (Expr.sym s) m = (m, (s.loop_dep, decide (¬ s.symbol ∈ w)))) ∧
    (∀ (w : List String) (op : BOp) (l r : Expr) (m : EDMap),
      (extract_const w l m).2.1 = (extract_const w r (extract_const w l m).1).2.1 →
      extract_const w (Expr.bin op l r) m
        = ((extract_const w r (extract_const w l m).1).1,
           ((extract_const w l m).2.1, true))) ∧
    (∀ (w : List String) (op : BOp) (l r : Expr) (m : EDMap),
      (extract_const w l m).2.1 ≠ (extract_const w r (extract_const w l m).1).2.1 →
      (extract_const w l m).2.1 = [] →
      extract_const w (Expr.bin op l r) m
        = ((extract_const w r (extract_const w l m).1).1,
           ((extract_const w r (extract_const w l m).1).2.1, true))) ∧
    (∀ (w : List String) (op : BOp) (l r : Expr) (m : EDMap),
      (extract_const w l m).2.1 ≠ (extract_const w r (extract_const w l m).1).2.1 →
      (extract_const w l m).2.1 ≠ [] →
      (extract_const w r (extract_const w l m).1).2.1 = [] →
      extract_const w (Expr.bin op l r) m
        = ((extract_const w r (extract_const w l m).1).1,
           ((extract_const w l m).2.1, true))) ∧
    (∀ (w : List String) (op : BOp) (l r : Expr) (m : EDMap),
      (extract_const w l m).2.1 ≠ (extract_const w r (extract_const w l m).1).2.1 →
      (extract_const w l m).2.1 ≠ [] →
      (extract_const w r (extract_const w l m).1).2.1 ≠ [] →
      extract_const w (Expr.bin op l r) m
        = (if (extract_const w r (extract_const w l m).1).2.2 && !(isSymbol r) then
             depAppend
               (if (extract_const w l m).2.2 && !(isSymbol l) then
                 depAppend (extract_const w r (extract_const w l m).1).1
                   (extract_const w l m).2.1 l
                else (extract_const w r (extract_const w l m).1).1)
               (extract_const w r (extract_const w l m).1).2.1 r
           else
             (if (extract_const w l m).2.2 && !(isSymbol l) then
               depAppend (extract_const w r (extract_const w l m).1).1
                 (extract_const w l m).2.1 l
              else (extract_const w r (extract_const w l m).1).1),
           ([], false))) := by
  refine ⟨fun w s m => rfl, ?_, ?_, ?_, ?_⟩
  · intro w op l r m h
    simp only [extract_const]
    rw [if_pos h]
  · intro w op l r m h1 h2
    simp only [extract_const]
    rw [if_neg h1, if_pos (by simp [h2])]
  · intro w op l r m h1 h2 h3
    simp only [extract_const]
    rw [if_neg h1, if_neg (by simpa using h2), if_pos (by simp [h3])]
  · intro w op l r m h1 h2 h3
    simp only [extract_const]
    rw [if_neg h1, if_neg (by simpa using h2), if_neg (by simpa using h3)]

/-- C4 witness: the register branch applied to the two set-equal,
tuple-different children of `eC4`. -/
theorem c4_branches_witness :
    extract_const [] (Expr.bin BOp.mul lC4 rC4) []
      = ([(["i", "j"], [lC4]), (["j", "i"], [rC4])], ([], false)) := by
  have h := c4_extract_const_branches.2.2.2.2 [] BOp.mul lC4 rC4 []
    (by decide) (by decide) (by decide)
  rw [h]
  decide

/-- C9 (amended): the directive parser silently ignores annotations with
fewer than three space-split tokens; on a namespace-qualified
`outerproduct` directive it records the characters at offsets 1 and 3 of
the argument text (the operand names when they are single characters);
other optimisation names and other namespaces give the two non-fatal
diagnostics. -/
theorem c9_directive_handling :
    (∀ p : List Char, (splitLimit ' ' 2 p).length < 3 →
      check_opts (some p) = .nothing) ∧
    (∀ a b : Char, a ≠ ' ' → b ≠ ' ' →
      check_opts (some (opPragma a b)) = .recorded [a] [b]) ∧
    check_opts (some ("#pragma pyop2 nonsense(a,b)".toList))
      = .unrecognisedOpt ("nonsense".toList) ∧
    check_opts (some ("#pragma other outerproduct(a,b)".toList))
      = .unrecognisedPragma := by
  refine ⟨?_, ?_, by decide, by decide⟩
  · intro p hp
    by_cases hpe : p = []
    · simp [check_opts, hpe]
    · simp [check_opts, hpe, hp]
  · intro a b ha hb
    simp [check_opts, opPragma, splitLimit, splitFirst, ha, hb]

/-- C9 witness: the single-character directive is recorded as its operand
characters, and a two-token annotation is silently ignored. -/
theorem c9_directive_witness :
    check_opts (some (opPragma 'a' 'b')) = .recorded ['a'] ['b'] ∧
      (splitLimit ' ' 2 ("#pragma onlytwo".toList)).length < 3 ∧
      check_opts (some ("#pragma onlytwo".toList)) = .nothing :=
  ⟨c9_directive_handling.2.1 'a' 'b' (by decide) (by decide),
   by decide,
   c9_directive_handling.1 _ (by decide)⟩

/-- The last element of the longest prefix avoiding `p` is the element
just before the first occurrence of `p`. -/
theorem takeWhile_getLast?_findIdx {α : Type} (p : α → Bool) :
    ∀ l : List α, (l.takeWhile (fun x => !(p x))).getLast?
      = if 0 < l.findIdx p then l.get? (l.findIdx p - 1) else none
  | [] => by simp
  | x :: xs => by
    by_cases hx : p x
    · simp [List.takeWhile_cons, List.findIdx_cons, hx]
    · have hfi : (x :: xs).findIdx p = xs.findIdx p + 1 := by
        simp [List.findIdx_cons, hx]
      have IH := takeWhile_getLast?_findIdx p xs
      rw [List.takeWhile_cons, if_pos (by simp [hx]), hfi]
      by_cases h0 : 0 < xs.findIdx p
      · obtain ⟨y, ys, hxs⟩ : ∃ y ys, xs = y :: ys := by
          cases xs with
          | nil => simp at h0
          | cons y ys => exact ⟨y, ys, rfl⟩
        have hy : ¬ p y := by
          intro hpy
          rw [hxs] at h0
          simp [List.findIdx_cons, hpy] at h0
        have htw : xs.takeWhile (fun x => !(p x)) = y :: ys.takeWhile (fun x => !(p x)) := by
          rw [hxs, List.takeWhile_cons, if_pos (by simp [hy])]
        rw [htw, List.getLast?_cons_cons, ← htw, IH, if_pos h0]
        rw [if_pos (Nat.succ_pos _)]
        obtain ⟨d, hd⟩ : ∃ d, xs.findIdx p = d + 1 :=
          ⟨xs.findIdx p - 1, (Nat.succ_pred_eq_of_pos h0).symm⟩
        rw [hd]
        simp
      · have hz : xs.findIdx p = 0 := Nat.eq_zero_of_not_pos h0
        have htw : xs.takeWhile (fun x => !(p x)) = [] := by
          cases xs with
          | nil => rfl
          | cons y ys =>
            have hy : p y := by
              by_contra hpy
              simp [List.findIdx_cons, hpy] at hz
            rw [List.takeWhile_cons, if_neg (by simp [hy])]
        rw [htw]
        simp [hz]

/-- Appending an extra wrap loop at the end of the outer-first list makes
it the innermost wrapper. -/
theorem specWrapOut_append (l : ForHdr) (b : Node) :
    ∀ xs : List ForHdr, xs ≠ [] →
      specWrapOut (xs ++ [l]) b = specWrapOut xs (.block [.forN l b] true)
  | [_], _ => rfl
  | x :: x2 :: t, _ => by
    have IH := specWrapOut_append l b (x2 :: t) (by simp)
    show Node.forN x (.block [specWrapOut ((x2 :: t) ++ [l]) b] true)
      = Node.forN x (.block [specWrapOut (x2 :: t) (.block [.forN l b] true)] true)
    rw [IH]

/-- `buildWrap` builds exactly the spec-side nest: the reversed wrap list
outer-first, so the head of the wrap list is the innermost loop. -/
theorem buildWrap_eq_specWrapOut :
    ∀ (wl : List ForHdr) (b : Node), wl ≠ [] →
      buildWrap wl b = some (specWrapOut wl.reverse b)
  | [_], _, _ => rfl
  | l :: l2 :: t, b, _ => by
    have IH := buildWrap_eq_specWrapOut (l2 :: t) (.block [.forN l b] true) (by simp)
    rw [show buildWrap (l :: l2 :: t) b
        = buildWrap (l2 :: t) (.block [.forN l b] true) from rfl, IH]
    have hrev : (l :: l2 :: t).reverse = (l2 :: t).reverse ++ [l] := by simp
    rw [hrev, specWrapOut_append l b (l2 :: t).reverse (by simp)]

/-- C5 (amended): the placement computed by `licm` agrees everywhere with
the spec-side rule in which, at the pre-header, the hoisted code is
wrapped by the `depSet` loops in nest order with the first (outermost nest
position) of them innermost; and the wrapping loop `buildWrap` builds is
exactly that nest, with the head of the wrap list innermost. -/
theorem c5_placement_agrees :
    (∀ (fors : List ForHdr) (dep : List String),
      licmPlaceDescr fors dep = hoistPlacementSpec fors dep) ∧
    (∀ (wl : List ForHdr) (b : Node), wl ≠ [] →
      buildWrap wl b = some (specWrapOut wl.reverse b)) := by
  refine ⟨?_, buildWrap_eq_specWrapOut⟩
  intro fors dep
  simp only [licmPlaceDescr, licmPlacement, hoistPlacementSpec]
  cases hL : dep.getLast? with
  | none => simp [hL]
  | some lastVar =>
    cases hF : fors.find? (fun l => l.ivar = lastVar) with
    | none => simp [hL, hF]
    | some fa =>
      cases hN : fors.find? (fun l => ¬ l.ivar ∈ dep) with
      | none => simp [hL, hF, hN]
      | some nd =>
        simp only [Option.pure_def, Option.bind_eq_bind, Option.some_bind, hF, hN]
        have hpred : (fun l : ForHdr => decide (l.ivar ≠ fa.ivar ∧ l.ivar ≠ nd.ivar))
            = fun l => !(decide (l.ivar = fa.ivar ∨ l.ivar = nd.ivar)) := by
          funext l
          by_cases h1 : l.ivar = fa.ivar <;> by_cases h2 : l.ivar = nd.ivar <;>
            simp [h1, h2]
        rw [hpred, takeWhile_getLast?_findIdx]
        set i := fors.findIdx (fun l => l.ivar = fa.ivar ∨ l.ivar = nd.ivar) with hi
        by_cases h0 : 0 < i
        · rw [if_pos h0]
          have hfa : fa ∈ fors := List.mem_of_find?_eq_some hF
          have hlen : 0 < fors.length := List.length_pos.mpr (by
            intro hnil
            rw [hnil] at hfa
            simp at hfa)
          have hle : i ≤ fors.length := by
            rw [hi]
            exact List.findIdx_le_length _
          have hlt : i - 1 < fors.length := by omega
          obtain ⟨pre, hpre⟩ : ∃ y, fors[i - 1]? = some y :=
            ⟨fors[i - 1], List.getElem?_eq_getElem hlt⟩
          simp [hpre, h0]
        · rw [if_neg h0]
          simp [h0]

/-- C5 (witness): the placement agreement at the `progC5` group
`("j","i")` and the wrap construction of its two nest-order loops. -/
theorem c5_placement_witness :
    licmPlaceDescr [mkFor "i" 2, mkFor "j" 2, mkFor "k" 2] ["j", "i"]
      = hoistPlacementSpec [mkFor "i" 2, mkFor "j" 2, mkFor "k" 2] ["j", "i"] ∧
      buildWrap [mkFor "i" 2, mkFor "j" 2] (.block [asgC5] true)
        = some (specWrapOut [mkFor "j" 2, mkFor "i" 2] (.block [asgC5] true)) := by
  constructor
  · exact c5_placement_agrees.1 [mkFor "i" 2, mkFor "j" 2, mkFor "k" 2] ["j", "i"]
  · have h := c5_placement_agrees.2 [mkFor "i" 2, mkFor "j" 2] (.block [asgC5] true)
      (by decide)
    simpa using h

/-- The one-loop perfect nest. -/
theorem renderPerfect_one (h : ForHdr) (stmts : List Node) :
    renderPerfect [h] stmts = .forN h (.block stmts true) := by
  simp [renderPerfect, renderLevels]

/-- The unfolding of a deeper perfect nest. -/
theorem renderPerfect_cons (h h2 : ForHdr) (t : List ForHdr) (stmts : List Node) :
    renderPerfect (h :: h2 :: t) stmts
      = .forN h (.block [renderPerfect (h2 :: t) stmts] true) := by
  simp [renderPerfect, renderLevels]

/-- The `find_perm` walk stops unchanged on a statement block. -/
theorem stopsWalk_find_perm (stmts : List Node) (o : Bool)
    (perm : List Nat) (idx : Nat) (fors : List ForHdr)
    (hs : stopsWalk stmts = true) :
    find_perm (.block stmts o) perm idx fors = (.block stmts o, [], true) := by
  cases stmts with
  | nil => rfl
  | cons n rest =>
    cases n with
    | assign lhs rhs p => rfl
    | incrS lhs rhs p => rfl
    | decl t s => rfl
    | block cs o2 => simp [stopsWalk] at hs
    | forN hdr body => simp [stopsWalk] at hs

/-- One-step unfolding of `selHdrs`. -/
theorem selHdrs_succ (perm : List Nat) (fors : List ForHdr) (idx n : Nat) :
    selHdrs perm fors idx (n + 1)
      = ((perm.get? idx).bind fors.get?).bind
          (fun f => (selHdrs perm fors (idx + 1) n).bind
            (fun rest => some (f :: rest))) := rfl

/-- `selHdrs` produces as many headers as requested. -/
theorem selHdrs_len (perm : List Nat) (fors : List ForHdr) :
    ∀ (n idx : Nat) (sel : List ForHdr),
      selHdrs perm fors idx n = some sel → sel.length = n
  | 0, idx, sel, hsel => by
    simp only [selHdrs] at hsel
    cases hsel
    rfl
  | n + 1, idx, sel, hsel => by
    rw [selHdrs_succ] at hsel
    cases hf : (perm.get? idx).bind fors.get? with
    | none => rw [hf] at hsel; simp at hsel
    | some f =>
      rw [hf] at hsel
      cases hrest : selHdrs perm fors (idx + 1) n with
      | none => rw [hrest] at hsel; simp at hsel
      | some rest =>
        rw [hrest] at hsel
        simp only [Option.some_bind, Option.some.injEq] at hsel
        subst hsel
        simp [selHdrs_len perm fors n (idx + 1) rest hrest]

/-- The `find_perm` walk along a perfect nest: every live loop at depth `d`
receives the snapshot header `fors[perm[idx + d]]`, the statement block is
left untouched, and the collected `nw_fors` list is exactly the headers in
tree order. -/
theorem find_perm_render (perm : List Nat) (fors : List ForHdr)
    (stmts : List Node) (hs : stopsWalk stmts = true) :
    ∀ (hdrs : List ForHdr) (idx : Nat) (sel : List ForHdr),
      selHdrs perm fors idx hdrs.length = some sel →
      find_perm (renderPerfect hdrs stmts) perm idx fors
        = (renderPerfect sel stmts, sel, true)
  | [], idx, sel, hsel => by
    simp only [selHdrs, List.length_nil] at hsel
    cases hsel
    exact stopsWalk_find_perm stmts true perm idx fors hs
  | [h], idx, sel, hsel => by
    rw [List.length_singleton, selHdrs_succ] at hsel
    cases hf : (perm.get? idx).bind fors.get? with
    | none => rw [hf] at hsel; simp at hsel
    | some f =>
      rw [hf] at hsel
      simp only [selHdrs, Option.some_bind, Option.some.injEq] at hsel
      subst hsel
      rw [renderPerfect_one, renderPerfect_one]
      show (match (perm.get? idx).bind fors.get? with
        | none => (Node.forN h (.block stmts true), [], false)
        | some f =>
          let rec2 := find_perm (.block stmts true) perm (idx + 1) fors
          (.forN f rec2.1, f :: rec2.2.1, rec2.2.2)) = _
      rw [hf, stopsWalk_find_perm stmts true perm (idx + 1) fors hs]
  | h :: h2 :: t, idx, sel, hsel => by
    rw [List.length_cons, List.length_cons, selHdrs_succ] at hsel
    cases hf : (perm.get? idx).bind fors.get? with
    | none => rw [hf] at hsel; simp at hsel
    | some f =>
      rw [hf] at hsel
      cases hrest : selHdrs perm fors (idx + 1) (t.length + 1) with
      | none => rw [hrest] at hsel; simp at hsel
      | some sel2 =>
        rw [hrest] at hsel
        simp only [Option.some_bind, Option.some.injEq] at hsel
        subst hsel
        have IH := find_perm_render perm fors stmts hs (h2 :: t) (idx + 1) sel2
          (by simpa using hrest)
        obtain ⟨s1, srest, hsel2⟩ : ∃ s1 srest, sel2 = s1 :: srest := by
          have hl := selHdrs_len perm fors (t.length + 1) (idx + 1) sel2 hrest
          cases sel2 with
          | nil => simp at hl
          | cons s1 srest => exact ⟨s1, srest, rfl⟩
        rw [renderPerfect_cons]
        show (match (perm.get? idx).bind fors.get? with
          | none => (Node.forN h (.block [renderPerfect (h2 :: t) stmts] true), [], false)
          | some f =>
            let rec2 := find_perm (.block [renderPerfect (h2 :: t) stmts] true) perm (idx + 1) fors
            (.forN f rec2.1, f :: rec2.2.1, rec2.2.2)) = _
        rw [hf]
        show (Node.forN f
            (.block ((find_perm (renderPerfect (h2 :: t) stmts) perm (idx + 1) fors).1 :: []) true),
          f :: (find_perm (renderPerfect (h2 :: t) stmts) perm (idx + 1) fors).2.1,
          (find_perm (renderPerfect (h2 :: t) stmts) perm (idx + 1) fors).2.2) = _
        rw [IH, hsel2, renderPerfect_cons]

/-- `selHdrs` over the whole suffix of `perm` is `mapM` of the lookups. -/
theorem selHdrs_eq_mapM (fors : List ForHdr) :
    ∀ (ps perm : List Nat) (idx : Nat), perm.drop idx = ps →
      selHdrs perm fors idx ps.length = ps.mapM fors.get?
  | [], perm, idx, hdrop => rfl
  | k :: ks, perm, idx, hdrop => by
    have hget : perm.get? idx = some k := by
      have h1 : (perm.drop idx)[0]? = some k := by rw [hdrop]; simp
      rw [List.getElem?_drop] at h1
      rw [List.get?_eq_getElem?]
      simpa using h1
    have hdrop2 : perm.drop (idx + 1) = ks := by
      have h1 : (perm.drop idx).drop 1 = ks := by rw [hdrop]; rfl
      rw [List.drop_drop] at h1
      simpa [Nat.add_comm] using h1
    have IH := selHdrs_eq_mapM fors ks perm (idx + 1) hdrop2
    rw [List.length_cons, selHdrs_succ, hget, List.mapM_cons]
    cases hfk : fors.get? k with
    | none =>
      simp only [Option.some_bind, hfk, Option.none_bind]
      rfl
    | some f =>
      simp only [Option.some_bind, hfk, IH]
      rfl

/-- When every index is in range, `mapM` of the lookups is `filterMap`. -/
theorem mapM_get?_eq_filterMap (fors : List ForHdr) :
    ∀ ps : List Nat, (∀ k ∈ ps, k < fors.length) →
      ps.mapM fors.get? = some (ps.filterMap (fun k => fors.get? k))
  | [], _ => rfl
  | k :: ks, hin => by
    have hk : k < fors.length := hin k (List.mem_cons_self k ks)
    obtain ⟨f, hf⟩ : ∃ f, fors.get? k = some f := by
      rw [List.get?_eq_getElem?]
      exact ⟨fors[k], List.getElem?_eq_getElem hk⟩
    have IH := mapM_get?_eq_filterMap fors ks
      (fun x hx => hin x (List.mem_cons_of_mem k hx))
    rw [List.mapM_cons, hf, IH]
    simp only [Option.bind_eq_bind, Option.some_bind, Option.pure_def,
      List.filterMap_cons, hf]

/-- C6: `interchange` with a valid permutation on a perfect nest replaces
the header at tree position `p` with snapshot header `hdrs[perm[p]]`,
leaves the statement block untouched, and replaces the tracked loop list
with the live headers in tree-position order. -/
theorem c6_interchange_headers (hdrs : List ForHdr) (stmts : List Node)
    (perm : List Nat) (hs : stopsWalk stmts = true)
    (hlen : perm.length = hdrs.length)
    (hin : ∀ k ∈ perm, k < hdrs.length) (hnd : perm.Nodup) :
    interchange (renderPerfect hdrs stmts) hdrs perm
      = (renderPerfect (perm.filterMap (fun k => hdrs.get? k)) stmts,
         perm.filterMap (fun k => hdrs.get? k)) := by
  have hsel : selHdrs perm hdrs 0 hdrs.length
      = some (perm.filterMap (fun k => hdrs.get? k)) := by
    rw [← hlen]
    rw [show perm.length = (perm.drop 0).length by simp]
    rw [selHdrs_eq_mapM hdrs (perm.drop 0) perm 0 rfl]
    simpa using mapM_get?_eq_filterMap hdrs perm hin
  have hfp := find_perm_render perm hdrs stmts hs hdrs 0 _ hsel
  unfold interchange
  rw [if_neg (by simp [List.Nodup.dedup hnd])]
  simp [hfp]

/-- C6 witness: interchanging the three-loop nest with permutation
`[2, 0, 1]`. -/
theorem c6_interchange_witness :
    interchange (renderPerfect hdrsC6 stmtsC3) hdrsC6 [2, 0, 1]
      = (renderPerfect [mkFor "k" 4, mkFor "i" 2, mkFor "j" 3] stmtsC3,
         [mkFor "k" 4, mkFor "i" 2, mkFor "j" 3]) := by
  have h := c6_interchange_headers hdrsC6 stmtsC3 [2, 0, 1] (by decide) (by decide)
    (by decide) (by decide)
  rw [h]
  rfl

/-- `selHdrs` over a prefix of `perm` is `mapM` of the lookups on that
prefix: the walk never reads a header index beyond the nest depth. -/
theorem selHdrs_eq_mapM_take (fors : List ForHdr) :
    ∀ (n : Nat) (perm : List Nat) (idx : Nat), idx + n ≤ perm.length →
      selHdrs perm fors idx n = ((perm.drop idx).take n).mapM fors.get?
  | 0, _, _, _ => rfl
  | n + 1, perm, idx, hle => by
    have hidx : idx < perm.length := by omega
    have hdropc : perm.drop idx = perm[idx] :: perm.drop (idx + 1) :=
      List.drop_eq_getElem_cons hidx
    have hget : perm.get? idx = some perm[idx] := by
      rw [List.get?_eq_getElem?]
      exact List.getElem?_eq_getElem hidx
    have IH := selHdrs_eq_mapM_take fors n perm (idx + 1) (by omega)
    rw [selHdrs_succ, hget, hdropc, List.take_succ_cons, List.mapM_cons]
    cases hfk : fors.get? perm[idx] with
    | none =>
      simp only [Option.some_bind, hfk, Option.none_bind]
      rfl
    | some f =>
      simp only [Option.some_bind, hfk, IH]
      rfl

/-- C3 (amended): only argument sequences with repeated entries are
rejected, silently and with no mutation of the tree or the tracked loop
list.  A duplicate-free sequence is never rejected, whatever its length:
the walk reads only the first `n` entries for an `n`-loop nest, so when
those entries are all in range — a too-long sequence included —
`interchange` completes silently, rewrites every header from the snapshot
and replaces the tracked loop list; when a read entry is missing or out of
range, the `IndexError` of the counterexample propagates after the
earlier headers have been mutated. -/
theorem c3_validation_behaviour :
    (∀ (tree : Node) (fors : List ForHdr) (perm : List Nat), ¬ perm.Nodup →
      interchange tree fors perm = (tree, fors)) ∧
    (∀ (hdrs : List ForHdr) (stmts : List Node) (perm : List Nat),
      stopsWalk stmts = true → perm.Nodup → hdrs.length ≤ perm.length →
      (∀ k ∈ perm.take hdrs.length, k < hdrs.length) →
      interchange (renderPerfect hdrs stmts) hdrs perm
        = (renderPerfect ((perm.take hdrs.length).filterMap
            (fun k => hdrs.get? k)) stmts,
           (perm.take hdrs.length).filterMap (fun k => hdrs.get? k))) := by
  constructor
  · intro tree fors perm h
    unfold interchange
    rw [if_pos]
    intro hlen
    have hd : perm.dedup = perm :=
      (List.dedup_sublist perm).eq_of_length hlen.symm
    exact h (hd ▸ perm.nodup_dedup)
  · intro hdrs stmts perm hs hnd hlen hin
    have hsel : selHdrs perm hdrs 0 hdrs.length
        = some ((perm.take hdrs.length).filterMap (fun k => hdrs.get? k)) := by
      rw [selHdrs_eq_mapM_take hdrs hdrs.length perm 0 (by simpa using hlen)]
      rw [List.drop_zero]
      exact mapM_get?_eq_filterMap hdrs (perm.take hdrs.length) hin
    have hfp := find_perm_render perm hdrs stmts hs hdrs 0 _ hsel
    unfold interchange
    rw [if_neg (by simp [List.Nodup.dedup hnd])]
    simp [hfp]

/-- C3 witness: the duplicate argument `[0, 0]` on the two-loop nest is a
silent no-op, while the duplicate-free, wrong-length, out-of-range
argument `[1, 0, 5]` completes silently — its entry `5` is never read —
swapping both headers and replacing the tracked loop list. -/
theorem c3_validation_witness :
    (¬ ([0, 0] : List Nat).Nodup ∧
      interchange nestC3 hdrsC3 [0, 0] = (nestC3, hdrsC3)) ∧
      interchange nestC3 hdrsC3 [1, 0, 5]
        = (renderPerfect [mkFor "j" 3, mkFor "i" 2] stmtsC3,
           [mkFor "j" 3, mkFor "i" 2]) := by
  refine ⟨⟨by decide, c3_validation_behaviour.1 nestC3 hdrsC3 [0, 0] (by decide)⟩, ?_⟩
  have h := c3_validation_behaviour.2 hdrsC3 stmtsC3 [1, 0, 5] (by decide)
    (by decide) (by decide) (by decide)
  rw [show nestC3 = renderPerfect hdrsC3 stmtsC3 from rfl, h]
  rfl

/-- `licmGrows` is reflexive. -/
theorem licmGrows_refl (a : LOState) : licmGrows a a :=
  ⟨[], by simp, by simp, fun _ h => h⟩

/-- `licmGrows` is transitive. -/
theorem licmGrows_trans {a b c : LOState} (h1 : licmGrows a b)
    (h2 : licmGrows b c) : licmGrows a c := by
  obtain ⟨t1, hs1, hc1, hp1⟩ := h1
  obtain ⟨t2, hs2, hc2, hp2⟩ := h2
  refine ⟨t1 ++ t2, by rw [hs2, hs1, List.append_assoc], ?_, fun n h => hp2 n (hp1 n h)⟩
  intro n hn
  rcases List.mem_append.mp hn with hn1 | hn2
  · exact hp2 n (hc1 n hn1)
  · exact hc2 n hn2

/-- A lookup in the declaration table succeeds exactly when the name is
among its keys. -/
theorem lookup_isSome_iff (ds : List (String × Node)) (n : String) :
    ((ds.lookup n).isSome) = true ↔ n ∈ ds.map Prod.fst := by
  induction ds with
  | nil => simp [List.lookup]
  | cons p ps ih =>
    rcases p with ⟨pk, pv⟩
    by_cases hn : n = pk
    · subst hn
      simp [List.lookup_cons]
    · simp [List.lookup_cons, beq_false_of_ne hn, hn, ih]

/-- Replacing the value stored under one key leaves the key list
unchanged. -/
theorem mapRep_keys (ds : List (String × Node)) (kv : String × Node) :
    (ds.map (fun p => if p.1 = kv.1 then kv else p)).map Prod.fst
      = ds.map Prod.fst := by
  rw [List.map_map]
  apply List.map_congr_left
  intro p _
  by_cases hp : p.1 = kv.1 <;> simp [Function.comp, hp]

/-- `declsUpdate` makes every key of the update present and keeps every
present key present. -/
theorem declsUpdate_covers :
    ∀ (new ds : List (String × Node)) (n : String),
      (n ∈ new.map Prod.fst ∨ ((ds.lookup n).isSome) = true) →
      (((declsUpdate ds new).lookup n).isSome) = true
  | [], ds, n, h => by
    rcases h with h | h
    · simp at h
    · simpa [declsUpdate] using h
  | kv :: rest, ds, n, h => by
    have hstep : declsUpdate ds (kv :: rest)
        = declsUpdate (if ((ds.lookup kv.1).isSome) = true then
            ds.map (fun p => if p.1 = kv.1 then kv else p) else ds ++ [kv]) rest := by
      simp only [declsUpdate, List.foldl_cons]
    rw [hstep]
    apply declsUpdate_covers rest _ n
    rcases h with h | h
    · rw [List.map_cons] at h
      rcases List.mem_cons.mp h with h1 | h1
      · right
        rw [lookup_isSome_iff]
        split_ifs with hds
        · rw [mapRep_keys]
          subst h1
          exact (lookup_isSome_iff ds kv.1).mp hds
        · rw [List.map_append]
          subst h1
          simp
      · left
        exact h1
    · right
      rw [lookup_isSome_iff] at h ⊢
      split_ifs with hds
      · rw [mapRep_keys]
        exact h
      · rw [List.map_append]
        exact List.mem_append.mpr (Or.inl h)

/-- The key list of the declaration pairs built from the hoisted
declarations is the hoisted name list. -/
theorem declPairs_fst :
    ∀ vd : List Node,
      ((vd.filterMap (fun d => match d with
        | .decl _ s => some (s.symbol, d)
        | _ => none)).map Prod.fst)
      = vd.filterMap (fun d => match d with
        | .decl _ s => some s.symbol
        | _ => none)
  | [] => rfl
  | d :: rest => by
    cases d <;> simp [declPairs_fst rest]

/-- One `licmGroup` call only appends to the symbol list, and every
appended name receives a declaration entry. -/
theorem licmGroup_grows (typ : String) (dep : List String) (exprList : List Expr)
    (st : LOState) (rhs : Expr) (ext : List Node)
    (out : LOState × Expr × List Node)
    (h : licmGroup typ dep exprList st rhs ext = some out) :
    licmGrows st out.1 := by
  simp only [licmGroup, Option.bind_eq_bind, Option.bind_eq_some, Option.pure_def,
    Option.some.injEq] at h
  obtain ⟨pw, hpw, h⟩ := h
  obtain ⟨pl, wl⟩ := pw
  obtain ⟨w0, hw0, h⟩ := h
  obtain ⟨inv_for, hinv, h⟩ := h
  obtain ⟨res, hres, h⟩ := h
  subst h
  set syms := (List.range exprList.length).map (fun i =>
    mkSym ("LI_" ++ w0.ivar ++ "_" ++ toString i)
      (wl.map (fun l => Idx.size l.bound))) with hsyms
  refine ⟨(syms.map (fun s => Node.decl typ s)).filterMap (fun d => match d with
    | .decl _ s => some s.symbol
    | _ => none), ?_, ?_, ?_⟩
  · cases pl <;> rfl
  · intro n hn
    have hmem : n ∈ ((syms.map (fun s => Node.decl typ s)).filterMap
        (fun d => match d with
          | .decl _ s => some (s.symbol, d)
          | _ => none)).map Prod.fst := by
      rw [declPairs_fst]
      exact hn
    have hcov := declsUpdate_covers _ st.decls n (Or.inl hmem)
    cases pl <;> exact hcov
  · intro n hds
    have hcov := declsUpdate_covers ((syms.map (fun s => Node.decl typ s)).filterMap
      (fun d => match d with
        | .decl _ s => some (s.symbol, d)
        | _ => none)) st.decls n (Or.inr hds)
    cases pl <;> exact hcov

/-- The group fold of one statement only grows the bookkeeping. -/
theorem licmGroups_grow (typ : String) :
    ∀ (gs : EDMap) (a : LOState × Expr × List Node)
      (out : LOState × Expr × List Node),
      gs.foldlM (fun (x : LOState × Expr × List Node) g =>
        licmGroup typ g.1 g.2 x.1 x.2.1 x.2.2) a = some out →
      licmGrows a.1 out.1
  | [], a, out, h => by
    simp only [List.foldlM_nil, Option.pure_def, Option.some.injEq] at h
    subst h
    exact licmGrows_refl a.1
  | g :: rest, a, out, h => by
    rw [List.foldlM_cons] at h
    rcases Option.bind_eq_some.mp (by simpa using h) with ⟨b, hb, hrest⟩
    exact licmGrows_trans (licmGroup_grows typ g.1 g.2 a.1 a.2.1 a.2.2 b hb)
      (licmGroups_grow typ rest b out hrest)

/-- One statement iteration of `licm` only grows the bookkeeping. -/
theorem licmStmt_grows (w : List String) (n : Nat)
    (acc out : LOState × List Node) (h : licmStmt w n acc = some out) :
    licmGrows acc.1 out.1 := by
  unfold licmStmt at h
  dsimp only at h
  cases hs : acc.1.stmts.get? n with
  | none =>
    rw [hs] at h
    simp only [Option.some.injEq] at h
    subst h
    exact licmGrows_refl acc.1
  | some s =>
    rw [hs] at h
    cases s with
    | assign lhs rhs p =>
      simp only [Option.bind_eq_bind, Option.bind_eq_some, Option.pure_def,
        Option.some.injEq] at h
      obtain ⟨dnode, hdn, h⟩ := h
      obtain ⟨typ, htyp, h⟩ := h
      obtain ⟨folded, hfold, h⟩ := h
      subst h
      exact licmGroups_grow typ _ _ folded hfold
    | incrS lhs rhs p =>
      simp only [Option.bind_eq_bind, Option.bind_eq_some, Option.pure_def,
        Option.some.injEq] at h
      obtain ⟨dnode, hdn, h⟩ := h
      obtain ⟨typ, htyp, h⟩ := h
      obtain ⟨folded, hfold, h⟩ := h
      subst h
      exact licmGroups_grow typ _ _ folded hfold
    | block cs o =>
      simp only [Option.some.injEq] at h
      subst h
      exact licmGrows_refl acc.1
    | forN hdr body =>
      simp only [Option.some.injEq] at h
      subst h
      exact licmGrows_refl acc.1
    | decl t s2 =>
      simp only [Option.some.injEq] at h
      subst h
      exact licmGrows_refl acc.1

/-- The statement fold of `licm` only grows the bookkeeping. -/
theorem licmFold_grows (w : List String) :
    ∀ (ns : List Nat) (acc out : LOState × List Node),
      ns.foldlM (fun a n => licmStmt w n a) acc = some out →
      licmGrows acc.1 out.1
  | [], acc, out, h => by
    simp only [List.foldlM_nil, Option.pure_def, Option.some.injEq] at h
    subst h
    exact licmGrows_refl acc.1
  | n :: rest, acc, out, h => by
    rw [List.foldlM_cons] at h
    rcases Option.bind_eq_some.mp (by simpa using h) with ⟨b, hb, hrest⟩
    exact licmGrows_trans (licmStmt_grows w n acc b hb)
      (licmFold_grows w rest b out hrest)

/-- `inspectSym` preserves freedom from duplicates. -/
theorem inspectSym_nodup (s : Sym) (syms : List String) (h : syms.Nodup) :
    (inspectSym s syms).Nodup := by
  unfold inspectSym
  split_ifs with hc
  · simp [List.nodup_append, h, hc.1]
  · exact h

/-- `inspectE` preserves freedom from duplicates. -/
theorem inspectE_nodup :
    ∀ (e : Expr) (syms : List String), syms.Nodup → (inspectE e syms).Nodup
  | .sym s, syms, h => inspectSym_nodup s syms h
  | .par e, syms, h => inspectE_nodup e syms h
  | .bin _ l r, syms, h => inspectE_nodup r _ (inspectE_nodup l syms h)

mutual

/-- The explorer keeps the symbol list duplicate-free. -/
theorem inspect_syms_nodup :
    ∀ (node : Node) (parent : Option Node) (acc : ExploreAcc),
      acc.syms.Nodup → (inspect node parent acc).syms.Nodup
  | .block cs o, _, acc, h =>
    inspectList_syms_nodup cs (some (.block cs o)) { acc with blockStmts := cs } h
  | .forN hdr body, _, acc, h =>
    inspect_syms_nodup body (some (.forN hdr body))
      { acc with fors := acc.fors ++ [hdr] } h
  | .decl _ _, _, _, h => h
  | .assign lhs rhs p, parent, acc, h => by
    unfold inspect
    cases check_opts p <;>
      exact inspectE_nodup rhs _ (inspectSym_nodup lhs _ h)
  | .incrS lhs rhs p, parent, acc, h => by
    unfold inspect
    cases check_opts p <;>
      exact inspectE_nodup rhs _ (inspectSym_nodup lhs _ h)

/-- The explorer loop keeps the symbol list duplicate-free. -/
theorem inspectList_syms_nodup :
    ∀ (ns : List Node) (parent : Option Node) (acc : ExploreAcc),
      acc.syms.Nodup → (inspectList ns parent acc).syms.Nodup
  | [], _, _, h => h
  | n :: ns, parent, acc, h =>
    inspectList_syms_nodup ns parent (inspect n parent acc)
      (inspect_syms_nodup n parent acc h)

end

/-- C8 (amended): `licm` grows the symbol list append-only and gives every
appended name a declaration entry, and the explorer produces a
duplicate-free symbol list; the duplicate-freedom of the list after `licm`
fails (see the counterexample) because hoisted temporary names are reused. -/
theorem c8_amended_bookkeeping :
    (∀ (st : LOState) (r : LOState × List Node), licm st = some r →
      ∃ t, r.1.sym = st.sym ++ t ∧
        ∀ n ∈ t, ((r.1.decls.lookup n).isSome) = true) ∧
    (∀ (node : Node) (parent : Option Node) (acc : ExploreAcc),
      acc.syms.Nodup → (inspect node parent acc).syms.Nodup) := by
  constructor
  · intro st r h
    have hg := licmFold_grows (written_vars_of st.stmts)
      (List.range st.stmts.length) (st, []) r (by simpa [licm] using h)
    obtain ⟨t, h1, h2, _⟩ := hg
    exact ⟨t, h1, h2⟩
  · exact inspect_syms_nodup

/-- C8 witness: the growth property applied to the scenario program and
the explorer property applied to the two-loop nest. -/
theorem c8_bookkeeping_witness :
    (∃ t, progC2.sym = progC2.sym ++ t ∧
      ∀ n ∈ t, ((progC2.decls.lookup n).isSome) = true) ∧
      (inspect nestC3 none emptyAcc).syms.Nodup := by
  constructor
  · exact c8_amended_bookkeeping.1 progC2 (progC2, []) (by decide)
  · exact c8_amended_bookkeeping.2 nestC3 none emptyAcc (by decide)

/-- C10 witness: the group key `("i","j")` of the `progC7` statement is
nonempty with a defined last element. -/
theorem c10_keys_witness :
    (["i", "j"] ∈ ((extract_const ["A"] rhsC7 []).1).map Prod.fst) ∧
      ["i", "j"] ≠ ([] : List String) ∧ ((["i", "j"] : List String).getLast?).isSome := by
  have h := c10_group_keys_nonempty ["A"] rhsC7 ["i", "j"] (by decide)
  exact ⟨by decide, h.1, h.2⟩

end PyOP2
